import Mathlib

/-!
Verification of the edit-distance visualizer core (`src/App.tsx`).

The two functions with algorithmic content are shallowly embedded here:

* `computeEditDistanceSteps` (the Trace Builder): the mutable JS arrays
  `dp` and `parent` become functions `Nat → Nat → _` updated by `upd2`
  (arrays start as all-`0` / all-`null`, mirroring `Array(...).fill(0)` and
  the all-`null` initialisation), the three `for` loops become `List.foldl`
  over `List.range`, and the returned arrays are materialised as lists of
  the dimensions the source allocates.
* `buildBacktrace` (the Backtrace Reconstructor): the `while (true)` loop
  becomes a fuel-indexed loop (`none` = fuel exhausted); the JS `Set` of
  visited cells is kept as the list of cells in visit order.  The
  optional-chaining lookup `parent[i]?.[j]` (which conflates out-of-bounds
  `undefined` with a stored `null`) is `parentLookup`.

Strings are embedded as `List Char`; `a[k]` on an index that is in bounds
wherever the source reads it is `a.get? k`, and the boundary sentinel `"∅"`
is `none` in the `Option Char` fields of a step.
-/

/-- The operation labels of the source (`type Op`); `match` is a Lean keyword,
so that constructor is named `matchOp`. -/
inductive Op where
  | init
  | matchOp
  | replace
  | insert
  | delete
deriving DecidableEq

/-- One candidate transition considered when filling a cell
(the anonymous `{op, from, value}` records of the source; `from` is a Lean
keyword, so the field is named `fromCell`). -/
structure Candidate where
  op : Op
  fromCell : Option (Nat × Nat)
  value : Nat
deriving DecidableEq

/-- The per-cell step record (`type CellExplain`). -/
structure CellExplain where
  i : Nat
  j : Nat
  aChar : Option Char
  bChar : Option Char
  cost : Nat
  candidates : List Candidate
  chosen : Candidate
deriving DecidableEq

/-- A parent pointer entry (`{ i, j, op }` in the source). -/
structure ParentLink where
  i : Nat
  j : Nat
  op : Op
deriving DecidableEq

/-- The mutable state of `computeEditDistanceSteps` while it runs:
the `dp` and `parent` arrays (as total functions, initial value `0` / `null`)
and the `steps` array built so far. -/
structure BuildState where
  dp : Nat → Nat → Nat
  parent : Nat → Nat → Option ParentLink
  steps : List CellExplain

/-- The record returned by `computeEditDistanceSteps`
(`return { dp, steps, parent }`). -/
structure BuildResult where
  dp : List (List Nat)
  steps : List CellExplain
  parent : List (List (Option ParentLink))

/-- Pointwise update of a two-argument function: the embedding of an
assignment `arr[i][j] = v`. -/
def upd2 {α : Type} (f : Nat → Nat → α) (i j : Nat) (v : α) : Nat → Nat → α :=
  fun x y => if x = i ∧ y = j then v else f x y

/-- One iteration of the first init loop (`for (let i = 0; i <= m; i++)`):
sets `dp[i][0] = i`, the parent pointer, and pushes the boundary step. -/
def initRowStep (a : List Char) (st : BuildState) (i : Nat) : BuildState :=
  let dp2 := upd2 st.dp i 0 i
  let parent2 := upd2 st.parent i 0
    (if i = 0 then none else some ⟨i - 1, 0, Op.delete⟩)
  if i = 0 then
    { dp := dp2, parent := parent2,
      steps := st.steps ++
        [⟨0, 0, none, none, dp2 0 0, [⟨Op.init, none, 0⟩], ⟨Op.init, none, 0⟩⟩] }
  else
    { dp := dp2, parent := parent2,
      steps := st.steps ++
        [⟨i, 0, a.get? (i - 1), none, dp2 i 0,
          [⟨Op.delete, some (i - 1, 0), dp2 i 0⟩],
          ⟨Op.delete, some (i - 1, 0), dp2 i 0⟩⟩] }

/-- One iteration of the second init loop (`for (let j = 1; j <= n; j++)`):
sets `dp[0][j] = j`, the parent pointer, and pushes the boundary step. -/
def initColStep (b : List Char) (st : BuildState) (j : Nat) : BuildState :=
  let dp2 := upd2 st.dp 0 j j
  let parent2 := upd2 st.parent 0 j (some ⟨0, j - 1, Op.insert⟩)
  { dp := dp2, parent := parent2,
    steps := st.steps ++
      [⟨0, j, none, b.get? (j - 1), dp2 0 j,
        [⟨Op.insert, some (0, j - 1), dp2 0 j⟩],
        ⟨Op.insert, some (0, j - 1), dp2 0 j⟩⟩] }

/-- The body of the fill loop for one interior cell `(i, j)` with
`1 ≤ i`, `1 ≤ j`: the three candidates, the `Math.min` of their values, the
tie-break `diag`, then `delete`, then `insert`, the two array writes and the
pushed step. -/
def fillCell (a b : List Char) (st : BuildState) (i j : Nat) : BuildState :=
  let del := st.dp (i - 1) j + 1
  let ins := st.dp i (j - 1) + 1
  let rep := st.dp (i - 1) (j - 1) + (if a.get? (i - 1) = b.get? (j - 1) then 0 else 1)
  let delC : Candidate := ⟨Op.delete, some (i - 1, j), del⟩
  let insC : Candidate := ⟨Op.insert, some (i, j - 1), ins⟩
  let diag : Candidate :=
    ⟨if a.get? (i - 1) = b.get? (j - 1) then Op.matchOp else Op.replace,
      some (i - 1, j - 1), rep⟩
  let candidates := [delC, insC, diag]
  let minVal := min del (min ins rep)
  let chosen := if diag.value = minVal then diag
    else if delC.value = minVal then delC else insC
  let dp2 := upd2 st.dp i j chosen.value
  let parent2 := upd2 st.parent i j
    (match chosen.fromCell with
      | some p => some ⟨p.1, p.2, chosen.op⟩
      | none => none)
  { dp := dp2, parent := parent2,
    steps := st.steps ++
      [⟨i, j, a.get? (i - 1), b.get? (j - 1), dp2 i j, candidates, chosen⟩] }

/-- The state before any loop runs: `dp` all `0`, `parent` all `null`,
`steps` empty. -/
def initState : BuildState :=
  ⟨fun _ _ => 0, fun _ _ => none, []⟩

/-- State after the first init loop (`i = 0 .. m`). -/
def buildPhase1 (a : List Char) : BuildState :=
  (List.range (a.length + 1)).foldl (initRowStep a) initState

/-- State after the second init loop (`j = 1 .. n`). -/
def buildPhase2 (a b : List Char) : BuildState :=
  (List.range b.length).foldl (fun st j => initColStep b st (j + 1)) (buildPhase1 a)

/-- State after the row-major fill loops (`i = 1 .. m`, `j = 1 .. n`). -/
def buildPhase3 (a b : List Char) : BuildState :=
  (List.range a.length).foldl
    (fun st i => (List.range b.length).foldl
      (fun st2 j => fillCell a b st2 (i + 1) (j + 1)) st)
    (buildPhase2 a b)

/-- The Trace Builder `computeEditDistanceSteps(a, b)`: runs the three loops
and returns the `(m+1) × (n+1)` tables together with the step list. -/
def computeEditDistanceSteps (a b : List Char) : BuildResult :=
  let st := buildPhase3 a b
  ⟨(List.range (a.length + 1)).map
      (fun i => (List.range (b.length + 1)).map (st.dp i)),
    st.steps,
    (List.range (a.length + 1)).map
      (fun i => (List.range (b.length + 1)).map (st.parent i))⟩

/-- Read entry `(i, j)` of a returned table (out of range defaults, used only
in statements where the indices are in range). -/
def tableAt (t : List (List Nat)) (i j : Nat) : Nat :=
  (t.getD i []).getD j 0

/-- The JS lookup `parent[i]?.[j]`: `none` when the row or the column index
is out of range (JS `undefined`) and also when the stored entry is `null`. -/
def parentLookup (t : List (List (Option ParentLink))) (i j : Nat) :
    Option ParentLink :=
  match t.get? i with
  | none => none
  | some row =>
    match row.get? j with
    | none => none
    | some o => o

/-- The `while (true)` loop of `buildBacktrace`, indexed by fuel; `none`
means the fuel ran out before the loop broke.  Each iteration looks up
`parent[i]?.[j]`; a missing parent breaks the loop, otherwise the parent
cell is appended to the visit list and followed. -/
def backtraceLoop (t : List (List (Option ParentLink))) :
    Nat → Nat → Nat → List (Nat × Nat) → Option (List (Nat × Nat))
  | 0, _, _, _ => none
  | fuel + 1, i, j, path =>
    match parentLookup t i j with
    | none => some path
    | some p => backtraceLoop t fuel p.i p.j (path ++ [(p.i, p.j)])

/-- The Backtrace Reconstructor `buildBacktrace(parent, m, n)`: visits
`(m, n)` and then follows parent links; the JS `Set` of visited keys is the
returned list (cells in visit order). -/
def buildBacktrace (t : List (List (Option ParentLink))) (m n fuel : Nat) :
    Option (List (Nat × Nat)) :=
  backtraceLoop t fuel m n [(m, n)]

/-! ### The pure table/step specification

The row-major fill writes every cell exactly once, reading only cells
written earlier, so the final contents of `dp` are the fixpoint of the
textbook recurrence.  `dpSpec` is that recurrence, computed row by row so
that it is structurally recursive (and hence kernel-evaluable). -/

/-- Row `i + 1` of the cost table as a function of row `i`
(`prev`): `dpRow a b prev i j` is the value at cell `(i + 1, j)`. -/
def dpRow (a b : List Char) (prev : Nat → Nat) (i : Nat) : Nat → Nat
  | 0 => i + 1
  | j + 1 =>
    min (prev (j + 1) + 1)
      (min (dpRow a b prev i j + 1)
        (prev j + (if a.get? i = b.get? j then 0 else 1)))

/-- Rows of the cost-table recurrence, by recursion on the row index. -/
def dpSpecAux (a b : List Char) : Nat → Nat → Nat
  | 0 => fun j => j
  | i + 1 => dpRow a b (dpSpecAux a b i) i

/-- The value the source's fill leaves at cell `(i, j)` of `dp`. -/
def dpSpec (a b : List Char) (i j : Nat) : Nat :=
  dpSpecAux a b i j

theorem dpSpec_zero_left (a b : List Char) (j : Nat) : dpSpec a b 0 j = j := rfl

theorem dpSpec_zero_right (a b : List Char) (i : Nat) : dpSpec a b i 0 = i := by
  cases i <;> rfl

theorem dpSpec_succ_succ (a b : List Char) (i j : Nat) :
    dpSpec a b (i + 1) (j + 1) =
      min (dpSpec a b i (j + 1) + 1)
        (min (dpSpec a b (i + 1) j + 1)
          (dpSpec a b i j + (if a.get? i = b.get? j then 0 else 1))) := rfl

/-- The candidate list recorded for interior cell `(i + 1, j + 1)`. -/
def interiorCandidates (a b : List Char) (i j : Nat) : List Candidate :=
  [⟨Op.delete, some (i, j + 1), dpSpec a b i (j + 1) + 1⟩,
   ⟨Op.insert, some (i + 1, j), dpSpec a b (i + 1) j + 1⟩,
   ⟨if a.get? i = b.get? j then Op.matchOp else Op.replace, some (i, j),
     dpSpec a b i j + (if a.get? i = b.get? j then 0 else 1)⟩]

/-- The candidate chosen at interior cell `(i + 1, j + 1)` by the source's
tie-break (diagonal, then delete, then insert). -/
def chosenSpec (a b : List Char) (i j : Nat) : Candidate :=
  let del := dpSpec a b i (j + 1) + 1
  let ins := dpSpec a b (i + 1) j + 1
  let rep := dpSpec a b i j + (if a.get? i = b.get? j then 0 else 1)
  let minVal := min del (min ins rep)
  if rep = minVal then
    ⟨if a.get? i = b.get? j then Op.matchOp else Op.replace, some (i, j), rep⟩
  else if del = minVal then ⟨Op.delete, some (i, j + 1), del⟩
  else ⟨Op.insert, some (i + 1, j), ins⟩

/-- The parent pointer the source leaves at each cell. -/
def parentSpec (a b : List Char) : Nat → Nat → Option ParentLink
  | 0, 0 => none
  | x + 1, 0 => some ⟨x, 0, Op.delete⟩
  | 0, y + 1 => some ⟨0, y, Op.insert⟩
  | x + 1, y + 1 =>
    match (chosenSpec a b x y).fromCell with
    | some p => some ⟨p.1, p.2, (chosenSpec a b x y).op⟩
    | none => none

/-- The step pushed for cell `(0, 0)`. -/
def initStep : CellExplain :=
  ⟨0, 0, none, none, 0, [⟨Op.init, none, 0⟩], ⟨Op.init, none, 0⟩⟩

/-- The step pushed for boundary cell `(i, 0)` with `1 ≤ i`. -/
def rowStepAt (a : List Char) (i : Nat) : CellExplain :=
  ⟨i, 0, a.get? (i - 1), none, i,
    [⟨Op.delete, some (i - 1, 0), i⟩], ⟨Op.delete, some (i - 1, 0), i⟩⟩

/-- The step pushed in the first init loop for index `i` (cell `(i, 0)`). -/
def boundaryRowStep (a : List Char) (i : Nat) : CellExplain :=
  if i = 0 then initStep else rowStepAt a i

/-- The step pushed for boundary cell `(0, j)` with `1 ≤ j`. -/
def colStepAt (b : List Char) (j : Nat) : CellExplain :=
  ⟨0, j, none, b.get? (j - 1), j,
    [⟨Op.insert, some (0, j - 1), j⟩], ⟨Op.insert, some (0, j - 1), j⟩⟩

/-- The step pushed for interior cell `(i + 1, j + 1)`. -/
def interiorStep (a b : List Char) (i j : Nat) : CellExplain :=
  ⟨i + 1, j + 1, a.get? i, b.get? j, (chosenSpec a b i j).value,
    interiorCandidates a b i j, chosenSpec a b i j⟩

/-- The full step list, in the construction order of the source. -/
def stepsSpec (a b : List Char) : List CellExplain :=
  (List.range (a.length + 1)).map (boundaryRowStep a)
    ++ (List.range b.length).map (fun j => colStepAt b (j + 1))
    ++ (List.range a.length).flatMap
        (fun i => (List.range b.length).map (fun j => interiorStep a b i j))

/-- The coordinates of the steps, in construction order: `(i, 0)` for
`i = 0 .. lenA`, then `(0, j)` for `j = 1 .. lenB`, then the interior cells
in row-major order. -/
def coordOrder (m n : Nat) : List (Nat × Nat) :=
  (List.range (m + 1)).map (fun i => (i, 0))
    ++ (List.range n).map (fun j => (0, j + 1))
    ++ (List.range m).flatMap
        (fun i => (List.range n).map (fun j => (i + 1, j + 1)))

/-- The cost table of the specification, materialised with the dimensions
the source allocates. -/
def dpTableSpec (a b : List Char) : List (List Nat) :=
  (List.range (a.length + 1)).map
    (fun i => (List.range (b.length + 1)).map (dpSpec a b i))

/-- The parent table of the specification, materialised with the dimensions
the source allocates. -/
def parentTableSpec (a b : List Char) : List (List (Option ParentLink)) :=
  (List.range (a.length + 1)).map
    (fun i => (List.range (b.length + 1)).map (parentSpec a b i))

/-! ### Reference edit distance

An independent reference implementation of the Levenshtein distance, with
unit cost for insert, delete and substitute and zero cost for a match,
recursing on the heads of the lists (the Wagner–Fischer recurrence). -/

/-- Reference Levenshtein distance under the unit-cost model. -/
def levRef : List Char → List Char → Nat
  | [], ys => ys.length
  | _ :: xs, [] => xs.length + 1
  | x :: xs, y :: ys =>
    min (levRef xs (y :: ys) + 1)
      (min (levRef (x :: xs) ys + 1)
        (levRef xs ys + (if x = y then 0 else 1)))

theorem levRef_nil_left (ys : List Char) : levRef [] ys = ys.length := by
  simp [levRef]

theorem levRef_nil_right (xs : List Char) : levRef xs [] = xs.length := by
  cases xs <;> simp [levRef]

theorem levRef_cons_cons (x y : Char) (xs ys : List Char) :
    levRef (x :: xs) (y :: ys) =
      min (levRef xs (y :: ys) + 1)
        (min (levRef (x :: xs) ys + 1)
          (levRef xs ys + (if x = y then 0 else 1))) := by
  simp [levRef]

set_option maxHeartbeats 800000 in
/-- The reference distance also satisfies the last-element (snoc) recurrence.
This links the prefix-indexed cost table to the head-recursive reference. -/
theorem levRef_snoc_aux : ∀ (N : Nat) (xs ys : List Char) (x y : Char),
    xs.length + ys.length ≤ N →
    levRef (xs ++ [x]) (ys ++ [y]) =
      min (levRef xs (ys ++ [y]) + 1)
        (min (levRef (xs ++ [x]) ys + 1)
          (levRef xs ys + (if x = y then 0 else 1))) := by
  intro N
  induction N with
  | zero =>
    intro xs ys x y h
    have hxs : xs = [] := by
      cases xs
      · rfl
      · simp at h
    have hys : ys = [] := by
      cases ys
      · rfl
      · simp at h
    subst hxs; subst hys
    simp [levRef_cons_cons, levRef_nil_left, levRef_nil_right]
  | succ N ih =>
    intro xs ys x y h
    cases xs with
    | nil =>
      cases ys with
      | nil =>
        simp [levRef_cons_cons, levRef_nil_left, levRef_nil_right]
      | cons y2 ys2 =>
        have ih1 : levRef ([] ++ [x]) (ys2 ++ [y]) =
            min (levRef [] (ys2 ++ [y]) + 1)
              (min (levRef ([] ++ [x]) ys2 + 1)
                (levRef [] ys2 + (if x = y then 0 else 1))) := by
          apply ih
          simp at h ⊢
          omega
        simp only [List.nil_append, List.cons_append] at ih1 ⊢
        rw [levRef_cons_cons x y2, levRef_cons_cons x y2, ih1]
        simp only [levRef_nil_left, List.length_append, List.length_cons,
          List.length_nil]
        split_ifs <;> omega
    | cons x2 xs2 =>
      cases ys with
      | nil =>
        have ih1 : levRef (xs2 ++ [x]) ([] ++ [y]) =
            min (levRef xs2 ([] ++ [y]) + 1)
              (min (levRef (xs2 ++ [x]) [] + 1)
                (levRef xs2 [] + (if x = y then 0 else 1))) := by
          apply ih
          simp at h ⊢
          omega
        simp only [List.nil_append, List.cons_append] at ih1 ⊢
        rw [levRef_cons_cons x2 y, levRef_cons_cons x2 y, ih1]
        simp only [levRef_nil_right, List.length_append, List.length_cons,
          List.length_nil]
        split_ifs <;> omega
      | cons y2 ys2 =>
        have hlen : xs2.length + (y2 :: ys2).length ≤ N := by
          simp at h ⊢
          omega
        have hlen2 : (x2 :: xs2).length + ys2.length ≤ N := by
          simp at h ⊢
          omega
        have hlen3 : xs2.length + ys2.length ≤ N := by
          simp at h ⊢
          omega
        have ih1 := ih xs2 (y2 :: ys2) x y hlen
        have ih2 := ih (x2 :: xs2) ys2 x y hlen2
        have ih3 := ih xs2 ys2 x y hlen3
        simp only [List.cons_append] at ih1 ih2 ih3 ⊢
        rw [levRef_cons_cons x2 y2 (xs2 ++ [x]) (ys2 ++ [y])]
        rw [levRef_cons_cons x2 y2 xs2 (ys2 ++ [y])]
        rw [levRef_cons_cons x2 y2 (xs2 ++ [x]) ys2]
        rw [levRef_cons_cons x2 y2 xs2 ys2]
        rw [ih1]
        rw [ih2]
        rw [ih3]
        split_ifs <;> simp only [← min_add_add_right, add_zero] <;> ac_rfl

/-- Snoc recurrence for the reference distance. -/
theorem levRef_snoc (xs ys : List Char) (x y : Char) :
    levRef (xs ++ [x]) (ys ++ [y]) =
      min (levRef xs (ys ++ [y]) + 1)
        (min (levRef (xs ++ [x]) ys + 1)
          (levRef xs ys + (if x = y then 0 else 1))) :=
  levRef_snoc_aux (xs.length + ys.length) xs ys x y le_rfl

/-- The cost-table recurrence computes the reference distance of the
prefixes: `dpSpec a b i j` is the distance between the first `i` characters
of `a` and the first `j` characters of `b`. -/
theorem dpSpec_eq_levRef_take : ∀ (N : Nat) (a b : List Char) (i j : Nat),
    i + j ≤ N → i ≤ a.length → j ≤ b.length →
    dpSpec a b i j = levRef (a.take i) (b.take j) := by
  intro N
  induction N with
  | zero =>
    intro a b i j h hi hj
    have hi0 : i = 0 := by omega
    have hj0 : j = 0 := by omega
    subst hi0; subst hj0
    simp [dpSpec_zero_left, levRef_nil_left]
  | succ N ih =>
    intro a b i j h hi hj
    cases i with
    | zero =>
      rw [dpSpec_zero_left, List.take_zero, levRef_nil_left, List.length_take]
      omega
    | succ i2 =>
      cases j with
      | zero =>
        rw [dpSpec_zero_right, List.take_zero, levRef_nil_right, List.length_take]
        omega
      | succ j2 =>
        have hi2 : i2 < a.length := by omega
        have hj2 : j2 < b.length := by omega
        have hga : a.get? i2 = some (a.get ⟨i2, hi2⟩) := List.get?_eq_get hi2
        have hgb : b.get? j2 = some (b.get ⟨j2, hj2⟩) := List.get?_eq_get hj2
        have hta : a.take (i2 + 1) = a.take i2 ++ [a.get ⟨i2, hi2⟩] := by
          rw [List.take_succ, List.getElem?_eq_getElem hi2]
          rfl
        have htb : b.take (j2 + 1) = b.take j2 ++ [b.get ⟨j2, hj2⟩] := by
          rw [List.take_succ, List.getElem?_eq_getElem hj2]
          rfl
        rw [dpSpec_succ_succ, hta, htb, levRef_snoc, ← hta, ← htb,
          ih a b i2 (j2 + 1) (by omega) (by omega) (by omega),
          ih a b (i2 + 1) j2 (by omega) (by omega) (by omega),
          ih a b i2 j2 (by omega) (by omega) (by omega),
          hga, hgb]
        simp only [Option.some.injEq]

/-- The final cell of the cost-table recurrence is the reference distance of
the full inputs. -/
theorem dpSpec_length_length (a b : List Char) :
    dpSpec a b a.length b.length = levRef a b := by
  rw [dpSpec_eq_levRef_take (a.length + b.length) a b a.length b.length le_rfl
    le_rfl le_rfl, List.take_length, List.take_length]

/-- The in-file reference agrees with Mathlib's independent `levenshtein`
under the default unit-cost structure. -/
theorem levRef_eq_levenshtein_aux : ∀ (N : Nat) (xs ys : List Char),
    xs.length + ys.length ≤ N →
    levRef xs ys = levenshtein Levenshtein.defaultCost xs ys := by
  intro N
  induction N with
  | zero =>
    intro xs ys h
    have hxs : xs = [] := by
      cases xs
      · rfl
      · simp at h
    have hys : ys = [] := by
      cases ys
      · rfl
      · simp at h
    subst hxs; subst hys
    rw [levRef_nil_left, levenshtein_nil_nil]
    rfl
  | succ N ih =>
    intro xs ys h
    cases xs with
    | nil =>
      cases ys with
      | nil =>
        rw [levRef_nil_left, levenshtein_nil_nil]
        rfl
      | cons y ys2 =>
        rw [levRef_nil_left, levenshtein_nil_cons,
          ← ih [] ys2 (by simp at h ⊢; omega), levRef_nil_left]
        simp [Levenshtein.defaultCost]
        omega
    | cons x xs2 =>
      cases ys with
      | nil =>
        rw [levRef_nil_right, levenshtein_cons_nil,
          ← ih xs2 [] (by simp at h ⊢; omega), levRef_nil_right]
        simp [Levenshtein.defaultCost]
        omega
      | cons y ys2 =>
        rw [levRef_cons_cons, levenshtein_cons_cons,
          ← ih xs2 (y :: ys2) (by simp at h ⊢; omega),
          ← ih (x :: xs2) ys2 (by simp at h ⊢; omega),
          ← ih xs2 ys2 (by simp at h ⊢; omega)]
        simp [Levenshtein.defaultCost]
        split_ifs <;> omega

/-- The in-file reference agrees with Mathlib's `levenshtein` under unit
costs. -/
theorem levRef_eq_levenshtein (xs ys : List Char) :
    levRef xs ys = levenshtein Levenshtein.defaultCost xs ys :=
  levRef_eq_levenshtein_aux (xs.length + ys.length) xs ys le_rfl

/-! ### Characterising the build loops -/

/-- Build invariant: on the set `S` of already-written cells the running
state agrees with the pure specification. -/
def DoneInv (a b : List Char) (S : Nat → Nat → Prop) (st : BuildState) : Prop :=
  ∀ x y, S x y → st.dp x y = dpSpec a b x y ∧ st.parent x y = parentSpec a b x y

theorem DoneInv.mono {a b : List Char} {S T : Nat → Nat → Prop}
    {st : BuildState} (h : DoneInv a b S st) (hsub : ∀ x y, T x y → S x y) :
    DoneInv a b T st :=
  fun x y hxy => h x y (hsub x y hxy)

/-- The chosen candidate's value is the minimum of the three candidate
values, i.e. the recurrence value of the cell. -/
theorem chosenSpec_value (a b : List Char) (i j : Nat) :
    (chosenSpec a b i j).value = dpSpec a b (i + 1) (j + 1) := by
  rw [dpSpec_succ_succ]
  simp only [chosenSpec]
  split_ifs with h0 h1 h2 h3 <;> dsimp only <;> omega

/-- Executing `fillCell` at an interior cell whose three dependencies agree
with the specification produces exactly the specified writes and step. -/
theorem fillCell_record (a b : List Char) (st : BuildState) (i j : Nat)
    (e1 : st.dp i (j + 1) = dpSpec a b i (j + 1))
    (e2 : st.dp (i + 1) j = dpSpec a b (i + 1) j)
    (e3 : st.dp i j = dpSpec a b i j) :
    fillCell a b st (i + 1) (j + 1) =
      ⟨upd2 st.dp (i + 1) (j + 1) (chosenSpec a b i j).value,
        upd2 st.parent (i + 1) (j + 1) (parentSpec a b (i + 1) (j + 1)),
        st.steps ++ [interiorStep a b i j]⟩ := by
  simp only [fillCell, Nat.add_sub_cancel, e1, e2, e3, upd2, eq_self_iff_true,
    and_self, if_true]
  rfl

/-- `fillCell` preserves and extends the build invariant and appends the
specified interior step. -/
theorem fillCell_characterize (a b : List Char) (S : Nat → Nat → Prop)
    (st : BuildState) (i j : Nat) (hinv : DoneInv a b S st)
    (h1 : S i (j + 1)) (h2 : S (i + 1) j) (h3 : S i j) :
    DoneInv a b (fun x y => S x y ∨ (x = i + 1 ∧ y = j + 1))
        (fillCell a b st (i + 1) (j + 1)) ∧
      (fillCell a b st (i + 1) (j + 1)).steps =
        st.steps ++ [interiorStep a b i j] := by
  have hrec := fillCell_record a b st i j (hinv i (j + 1) h1).1
    (hinv (i + 1) j h2).1 (hinv i j h3).1
  rw [hrec]
  refine ⟨?_, rfl⟩
  intro x y hxy
  by_cases hnew : x = i + 1 ∧ y = j + 1
  · obtain ⟨hx, hy⟩ := hnew
    subst hx; subst hy
    constructor
    · show upd2 st.dp (i + 1) (j + 1) (chosenSpec a b i j).value (i + 1) (j + 1) = _
      simp [upd2, chosenSpec_value]
    · show upd2 st.parent (i + 1) (j + 1) (parentSpec a b (i + 1) (j + 1)) (i + 1) (j + 1) = _
      simp [upd2]
  · have hS : S x y := by
      rcases hxy with h | h
      · exact h
      · exact absurd h hnew
    constructor
    · show upd2 st.dp (i + 1) (j + 1) (chosenSpec a b i j).value x y = _
      rw [upd2, if_neg hnew]
      exact (hinv x y hS).1
    · show upd2 st.parent (i + 1) (j + 1) (parentSpec a b (i + 1) (j + 1)) x y = _
      rw [upd2, if_neg hnew]
      exact (hinv x y hS).2

/-- Writing the specified values of one cell into the state extends the
invariant to that cell. -/
theorem doneInv_upd (a b : List Char) (S : Nat → Nat → Prop) (st : BuildState)
    (i j : Nat) (dpv : Nat) (pv : Option ParentLink)
    (steps2 : List CellExplain) (hinv : DoneInv a b S st)
    (hdp : dpv = dpSpec a b i j) (hp : pv = parentSpec a b i j) :
    DoneInv a b (fun x y => S x y ∨ (x = i ∧ y = j))
      ⟨upd2 st.dp i j dpv, upd2 st.parent i j pv, steps2⟩ := by
  intro x y hxy
  by_cases hnew : x = i ∧ y = j
  · obtain ⟨hx, hy⟩ := hnew
    subst hx; subst hy
    constructor
    · show upd2 st.dp x y dpv x y = _
      simp [upd2, hdp]
    · show upd2 st.parent x y pv x y = _
      simp [upd2, hp]
  · have hS : S x y := by
      rcases hxy with h | h
      · exact h
      · exact absurd h hnew
    constructor
    · show upd2 st.dp i j dpv x y = _
      rw [upd2, if_neg hnew]
      exact (hinv x y hS).1
    · show upd2 st.parent i j pv x y = _
      rw [upd2, if_neg hnew]
      exact (hinv x y hS).2

/-- One iteration of the first init loop extends the invariant to `(k, 0)`
and appends the specified boundary step. -/
theorem initRowStep_characterize (a b : List Char) (S : Nat → Nat → Prop)
    (st : BuildState) (k : Nat) (hinv : DoneInv a b S st) :
    DoneInv a b (fun x y => S x y ∨ (x = k ∧ y = 0)) (initRowStep a st k) ∧
      (initRowStep a st k).steps = st.steps ++ [boundaryRowStep a k] := by
  cases k with
  | zero =>
    rw [show initRowStep a st 0 =
      ⟨upd2 st.dp 0 0 0, upd2 st.parent 0 0 none, st.steps ++ [initStep]⟩ from rfl]
    exact ⟨doneInv_upd a b S st 0 0 0 none _ hinv rfl rfl, rfl⟩
  | succ k2 =>
    have hrec : initRowStep a st (k2 + 1) =
        ⟨upd2 st.dp (k2 + 1) 0 (k2 + 1),
          upd2 st.parent (k2 + 1) 0 (some ⟨k2, 0, Op.delete⟩),
          st.steps ++ [rowStepAt a (k2 + 1)]⟩ := by
      simp only [initRowStep, upd2, Nat.add_sub_cancel, eq_self_iff_true,
        and_self, if_true, if_neg (Nat.succ_ne_zero k2)]
      rfl
    rw [hrec]
    refine ⟨doneInv_upd a b S st (k2 + 1) 0 (k2 + 1) (some ⟨k2, 0, Op.delete⟩) _
      hinv ?_ rfl, ?_⟩
    · rw [dpSpec_zero_right]
    · show st.steps ++ [rowStepAt a (k2 + 1)] = st.steps ++ [boundaryRowStep a (k2 + 1)]
      rfl

/-- One iteration of the second init loop extends the invariant to
`(0, j + 1)` and appends the specified boundary step. -/
theorem initColStep_characterize (a b : List Char) (S : Nat → Nat → Prop)
    (st : BuildState) (j : Nat) (hinv : DoneInv a b S st) :
    DoneInv a b (fun x y => S x y ∨ (x = 0 ∧ y = j + 1)) (initColStep b st (j + 1)) ∧
      (initColStep b st (j + 1)).steps = st.steps ++ [colStepAt b (j + 1)] := by
  have hrec : initColStep b st (j + 1) =
      ⟨upd2 st.dp 0 (j + 1) (j + 1),
        upd2 st.parent 0 (j + 1) (some ⟨0, j, Op.insert⟩),
        st.steps ++ [colStepAt b (j + 1)]⟩ := by
    simp only [initColStep, upd2, Nat.add_sub_cancel, eq_self_iff_true,
      and_self, if_true]
    rfl
  rw [hrec]
  exact ⟨doneInv_upd a b S st 0 (j + 1) (j + 1) (some ⟨0, j, Op.insert⟩) _
    hinv (by rw [dpSpec_zero_left]) rfl, rfl⟩

/-- Characterisation of the first init loop. -/
theorem initRow_fold (a b : List Char) (st : BuildState) (S : Nat → Nat → Prop)
    (hinv : DoneInv a b S st) :
    ∀ k, DoneInv a b (fun x y => S x y ∨ (y = 0 ∧ x < k))
        ((List.range k).foldl (initRowStep a) st) ∧
      ((List.range k).foldl (initRowStep a) st).steps =
        st.steps ++ (List.range k).map (boundaryRowStep a) := by
  intro k
  induction k with
  | zero =>
    refine ⟨hinv.mono ?_, by simp⟩
    intro x y h
    rcases h with h | h
    · exact h
    · omega
  | succ k ih =>
    obtain ⟨ih1, ih2⟩ := ih
    rw [List.range_succ, List.foldl_append, List.map_append, List.foldl_cons,
      List.foldl_nil]
    obtain ⟨h1, h2⟩ := initRowStep_characterize a b _ _ k ih1
    refine ⟨h1.mono ?_, ?_⟩
    · intro x y h
      rcases h with h | h
      · exact Or.inl (Or.inl h)
      · by_cases hx : x < k
        · exact Or.inl (Or.inr ⟨h.1, hx⟩)
        · exact Or.inr ⟨by omega, h.1⟩
    · rw [h2, ih2, List.append_assoc]
      rfl

/-- Characterisation of the second init loop. -/
theorem initCol_fold (a b : List Char) (st : BuildState) (S : Nat → Nat → Prop)
    (hinv : DoneInv a b S st) :
    ∀ t, DoneInv a b (fun x y => S x y ∨ (x = 0 ∧ 1 ≤ y ∧ y ≤ t))
        ((List.range t).foldl (fun st2 j => initColStep b st2 (j + 1)) st) ∧
      ((List.range t).foldl (fun st2 j => initColStep b st2 (j + 1)) st).steps =
        st.steps ++ (List.range t).map (fun j => colStepAt b (j + 1)) := by
  intro t
  induction t with
  | zero =>
    refine ⟨hinv.mono ?_, by simp⟩
    intro x y h
    rcases h with h | h
    · exact h
    · omega
  | succ t ih =>
    obtain ⟨ih1, ih2⟩ := ih
    rw [List.range_succ, List.foldl_append, List.map_append, List.foldl_cons,
      List.foldl_nil]
    obtain ⟨h1, h2⟩ := initColStep_characterize a b _ _ t ih1
    refine ⟨h1.mono ?_, ?_⟩
    · intro x y h
      rcases h with h | h
      · exact Or.inl (Or.inl h)
      · by_cases hy : y ≤ t
        · exact Or.inl (Or.inr ⟨h.1, h.2.1, hy⟩)
        · exact Or.inr ⟨h.1, by omega⟩
    · rw [h2, ih2, List.append_assoc]
      rfl

/-- Characterisation of the inner fill loop over one row. -/
theorem fillRow_fold (a b : List Char) (S : Nat → Nat → Prop) (st : BuildState)
    (i T : Nat) (hinv : DoneInv a b S st) (hrow : ∀ y, y ≤ T → S i y)
    (h0 : S (i + 1) 0) :
    ∀ t, t ≤ T →
      DoneInv a b (fun x y => S x y ∨ (x = i + 1 ∧ 1 ≤ y ∧ y ≤ t))
        ((List.range t).foldl (fun st2 j => fillCell a b st2 (i + 1) (j + 1)) st) ∧
      ((List.range t).foldl (fun st2 j => fillCell a b st2 (i + 1) (j + 1)) st).steps =
        st.steps ++ (List.range t).map (fun j => interiorStep a b i j) := by
  intro t
  induction t with
  | zero =>
    intro _
    refine ⟨hinv.mono ?_, by simp⟩
    intro x y h
    rcases h with h | h
    · exact h
    · omega
  | succ t ih =>
    intro ht
    obtain ⟨ih1, ih2⟩ := ih (by omega)
    rw [List.range_succ, List.foldl_append, List.map_append, List.foldl_cons,
      List.foldl_nil]
    have hd1 : (fun x y => S x y ∨ (x = i + 1 ∧ 1 ≤ y ∧ y ≤ t)) i (t + 1) :=
      Or.inl (hrow (t + 1) ht)
    have hd2 : (fun x y => S x y ∨ (x = i + 1 ∧ 1 ≤ y ∧ y ≤ t)) (i + 1) t := by
      cases t with
      | zero => exact Or.inl h0
      | succ t2 => exact Or.inr ⟨rfl, by omega, le_rfl⟩
    have hd3 : (fun x y => S x y ∨ (x = i + 1 ∧ 1 ≤ y ∧ y ≤ t)) i t :=
      Or.inl (hrow t (by omega))
    obtain ⟨h1, h2⟩ := fillCell_characterize a b _ _ i t ih1 hd1 hd2 hd3
    refine ⟨h1.mono ?_, ?_⟩
    · intro x y h
      rcases h with h | h
      · exact Or.inl (Or.inl h)
      · by_cases hy : y ≤ t
        · exact Or.inl (Or.inr ⟨h.1, h.2.1, hy⟩)
        · exact Or.inr ⟨h.1, by omega⟩
    · rw [h2, ih2, List.append_assoc]
      rfl

/-- Characterisation of the row-major fill loops. -/
theorem fillAll_fold (a b : List Char) (st : BuildState) (S : Nat → Nat → Prop)
    (hinv : DoneInv a b S st)
    (hbound : ∀ x y, (y = 0 ∧ x ≤ a.length) ∨ (x = 0 ∧ y ≤ b.length) → S x y) :
    ∀ r, r ≤ a.length →
      DoneInv a b (fun x y => S x y ∨ (1 ≤ x ∧ x ≤ r ∧ 1 ≤ y ∧ y ≤ b.length))
        ((List.range r).foldl (fun st2 i => (List.range b.length).foldl
          (fun st3 j => fillCell a b st3 (i + 1) (j + 1)) st2) st) ∧
      ((List.range r).foldl (fun st2 i => (List.range b.length).foldl
          (fun st3 j => fillCell a b st3 (i + 1) (j + 1)) st2) st).steps =
        st.steps ++ (List.range r).flatMap
          (fun i => (List.range b.length).map (fun j => interiorStep a b i j)) := by
  intro r
  induction r with
  | zero =>
    intro _
    refine ⟨hinv.mono ?_, by simp⟩
    intro x y h
    rcases h with h | h
    · exact h
    · omega
  | succ r ih =>
    intro hr
    obtain ⟨ih1, ih2⟩ := ih (by omega)
    rw [List.range_succ, List.foldl_append, List.foldl_cons, List.foldl_nil]
    have hrow : ∀ y, y ≤ b.length →
        (fun x y => S x y ∨ (1 ≤ x ∧ x ≤ r ∧ 1 ≤ y ∧ y ≤ b.length)) r y := by
      intro y hy
      cases y with
      | zero => exact Or.inl (hbound r 0 (Or.inl ⟨rfl, by omega⟩))
      | succ y2 =>
        cases r with
        | zero => exact Or.inl (hbound 0 (y2 + 1) (Or.inr ⟨rfl, hy⟩))
        | succ r2 => exact Or.inr ⟨by omega, le_rfl, by omega, hy⟩
    have h0 : (fun x y => S x y ∨ (1 ≤ x ∧ x ≤ r ∧ 1 ≤ y ∧ y ≤ b.length))
        (r + 1) 0 :=
      Or.inl (hbound (r + 1) 0 (Or.inl ⟨rfl, hr⟩))
    obtain ⟨h1, h2⟩ := fillRow_fold a b _ _ r b.length ih1 hrow h0 b.length le_rfl
    refine ⟨h1.mono ?_, ?_⟩
    · intro x y h
      rcases h with h | h
      · exact Or.inl (Or.inl h)
      · by_cases hx : x ≤ r
        · exact Or.inl (Or.inr ⟨h.1, hx, h.2.2.1, h.2.2.2⟩)
        · exact Or.inr ⟨by omega, h.2.2.1, h.2.2.2⟩
    · rw [h2, ih2, List.append_assoc, List.flatMap_append]
      simp

/-- After all three loops the state agrees with the specification on every
in-bounds cell, and the accumulated step list is exactly `stepsSpec`. -/
theorem buildPhase3_characterize (a b : List Char) :
    DoneInv a b (fun x y => x ≤ a.length ∧ y ≤ b.length) (buildPhase3 a b) ∧
      (buildPhase3 a b).steps = stepsSpec a b := by
  have h0 : DoneInv a b (fun _ _ => False) initState := fun x y h => h.elim
  obtain ⟨h11, h12⟩ := initRow_fold a b initState (fun _ _ => False) h0
    (a.length + 1)
  rw [show (List.range (a.length + 1)).foldl (initRowStep a) initState =
    buildPhase1 a from rfl] at h11 h12
  obtain ⟨h21, h22⟩ := initCol_fold a b (buildPhase1 a) _ h11 b.length
  rw [show (List.range b.length).foldl (fun st2 j => initColStep b st2 (j + 1))
    (buildPhase1 a) = buildPhase2 a b from rfl] at h21 h22
  have hbound : ∀ x y, (y = 0 ∧ x ≤ a.length) ∨ (x = 0 ∧ y ≤ b.length) →
      ((fun x y => ((fun _ _ => False) x y ∨ (y = 0 ∧ x < a.length + 1)) ∨
        (x = 0 ∧ 1 ≤ y ∧ y ≤ b.length)) x y) := by
    intro x y h
    rcases h with h | h
    · exact Or.inl (Or.inr ⟨h.1, by omega⟩)
    · cases y with
      | zero => exact Or.inl (Or.inr ⟨rfl, by omega⟩)
      | succ y2 => exact Or.inr ⟨h.1, by omega, h.2⟩
  obtain ⟨h31, h32⟩ := fillAll_fold a b (buildPhase2 a b) _ h21 hbound
    a.length le_rfl
  rw [show (List.range a.length).foldl (fun st2 i => (List.range b.length).foldl
    (fun st3 j => fillCell a b st3 (i + 1) (j + 1)) st2) (buildPhase2 a b) =
    buildPhase3 a b from rfl] at h31 h32
  constructor
  · refine h31.mono ?_
    intro x y h
    obtain ⟨hx, hy⟩ := h
    cases y with
    | zero => exact Or.inl (Or.inl (Or.inr ⟨rfl, by omega⟩))
    | succ y2 =>
      cases x with
      | zero => exact Or.inl (Or.inr ⟨rfl, by omega, hy⟩)
      | succ x2 => exact Or.inr ⟨by omega, hx, by omega, hy⟩
  · rw [h32, h22, h12, stepsSpec]
    simp only [initState, List.nil_append, List.append_assoc]

/-- The Trace Builder's returned record is exactly the pure specification:
the spec cost table, the spec step list and the spec parent table. -/
theorem computeEditDistanceSteps_eq (a b : List Char) :
    computeEditDistanceSteps a b =
      ⟨dpTableSpec a b, stepsSpec a b, parentTableSpec a b⟩ := by
  obtain ⟨hinv, hsteps⟩ := buildPhase3_characterize a b
  show (⟨(List.range (a.length + 1)).map
      (fun i => (List.range (b.length + 1)).map ((buildPhase3 a b).dp i)),
    (buildPhase3 a b).steps,
    (List.range (a.length + 1)).map
      (fun i => (List.range (b.length + 1)).map ((buildPhase3 a b).parent i))⟩ :
      BuildResult) = _
  rw [BuildResult.mk.injEq]
  refine ⟨?_, ⟨hsteps, ?_⟩⟩
  · rw [dpTableSpec]
    refine List.map_congr_left ?_
    intro i hi
    refine List.map_congr_left ?_
    intro j hj
    simp only [List.mem_range] at hi hj
    exact (hinv i j ⟨by omega, by omega⟩).1
  · rw [parentTableSpec]
    refine List.map_congr_left ?_
    intro i hi
    refine List.map_congr_left ?_
    intro j hj
    simp only [List.mem_range] at hi hj
    exact (hinv i j ⟨by omega, by omega⟩).2

/-- In-bounds reads of the spec cost table. -/
theorem tableAt_tableSpec (a b : List Char) (i j : Nat) (hi : i ≤ a.length)
    (hj : j ≤ b.length) : tableAt (dpTableSpec a b) i j = dpSpec a b i j := by
  simp only [tableAt, dpTableSpec, List.getD_eq_getElem?_getD, List.getElem?_map,
    List.getElem?_range (show i < a.length + 1 by omega),
    List.getElem?_range (show j < b.length + 1 by omega),
    Option.map_some', Option.getD_some]

/-- In-bounds reads of the spec parent table through the JS optional-chain
lookup. -/
theorem parentLookup_tableSpec (a b : List Char) (x y : Nat)
    (hx : x ≤ a.length) (hy : y ≤ b.length) :
    parentLookup (parentTableSpec a b) x y = parentSpec a b x y := by
  have h1 : (parentTableSpec a b).get? x =
      some ((List.range (b.length + 1)).map (parentSpec a b x)) := by
    rw [parentTableSpec, List.get?_map, List.get?_range (by omega)]
    rfl
  have h2 : ((List.range (b.length + 1)).map (parentSpec a b x)).get? y =
      some (parentSpec a b x y) := by
    rw [List.get?_map, List.get?_range (by omega)]
    rfl
  simp only [parentLookup, h1, h2]


/-- The spec parent pointer is missing exactly at the origin. -/
theorem parentSpec_eq_none_iff (a b : List Char) (x y : Nat) :
    parentSpec a b x y = none ↔ x = 0 ∧ y = 0 := by
  cases x with
  | zero =>
    cases y with
    | zero => simp [parentSpec]
    | succ y2 => simp [parentSpec]
  | succ x2 =>
    cases y with
    | zero => simp [parentSpec]
    | succ y2 =>
      simp only [parentSpec, chosenSpec]
      constructor
      · intro h
        split_ifs at h <;> simp at h
      · intro h
        exact absurd h.1 (Nat.succ_ne_zero x2)

/-- Every spec parent pointer moves one step up, one step left, or one step
up-left, with the matching operation label. -/
theorem parentSpec_delta (a b : List Char) (x y : Nat) (p : ParentLink)
    (h : parentSpec a b x y = some p) :
    (p.i + 1 = x ∧ p.j = y ∧ p.op = Op.delete) ∨
      (p.i = x ∧ p.j + 1 = y ∧ p.op = Op.insert) ∨
      (p.i + 1 = x ∧ p.j + 1 = y ∧ (p.op = Op.matchOp ∨ p.op = Op.replace)) := by
  cases x with
  | zero =>
    cases y with
    | zero => simp [parentSpec] at h
    | succ y2 =>
      simp only [parentSpec, Option.some.injEq] at h
      subst h
      exact Or.inr (Or.inl ⟨rfl, rfl, rfl⟩)
  | succ x2 =>
    cases y with
    | zero =>
      simp only [parentSpec, Option.some.injEq] at h
      subst h
      exact Or.inl ⟨rfl, rfl, rfl⟩
    | succ y2 =>
      simp only [parentSpec, chosenSpec] at h
      split_ifs at h with h0 h1 h2 h3 <;>
        simp only [Option.some.injEq] at h <;> subst h
      · exact Or.inr (Or.inr ⟨rfl, rfl, Or.inl rfl⟩)
      · exact Or.inl ⟨rfl, rfl, rfl⟩
      · exact Or.inr (Or.inl ⟨rfl, rfl, rfl⟩)
      · exact Or.inr (Or.inr ⟨rfl, rfl, Or.inr rfl⟩)
      · exact Or.inl ⟨rfl, rfl, rfl⟩
      · exact Or.inr (Or.inl ⟨rfl, rfl, rfl⟩)

/-- Two consecutive cells of a backtrace differ by exactly one of
`(-1, 0)`, `(0, -1)`, `(-1, -1)`. -/
def stepDelta (c c2 : Nat × Nat) : Prop :=
  (c2.1 + 1 = c.1 ∧ c2.2 = c.2) ∨ (c2.1 = c.1 ∧ c2.2 + 1 = c.2) ∨
    (c2.1 + 1 = c.1 ∧ c2.2 + 1 = c.2)

instance (c c2 : Nat × Nat) : Decidable (stepDelta c c2) := by
  rw [stepDelta]
  infer_instance

/-- Every pair of consecutive cells in the visit list satisfies
`stepDelta`. -/
def pathChain : List (Nat × Nat) → Prop
  | [] => True
  | [_] => True
  | c :: c2 :: rest => stepDelta c c2 ∧ pathChain (c2 :: rest)

instance : (l : List (Nat × Nat)) → Decidable (pathChain l)
  | [] => .isTrue trivial
  | [_] => .isTrue trivial
  | c :: c2 :: rest =>
    have : Decidable (pathChain (c2 :: rest)) := instDecidablePathChain (c2 :: rest)
    instDecidableAnd

/-- Appending a `stepDelta`-related cell preserves the chain property. -/
theorem pathChain_concat : ∀ (l : List (Nat × Nat)) (c0 c : Nat × Nat),
    pathChain l → l.getLast? = some c0 → stepDelta c0 c → pathChain (l ++ [c])
  | [], c0, c, _, hlast, _ => by simp at hlast
  | [d], c0, c, _, hlast, hdelta => by
    simp at hlast
    subst hlast
    exact ⟨hdelta, trivial⟩
  | d :: d2 :: rest, c0, c, hchain, hlast, hdelta => by
    rw [List.getLast?_cons_cons] at hlast
    exact ⟨hchain.1, pathChain_concat (d2 :: rest) c0 c hchain.2 hlast hdelta⟩

/-- One unfolding of the backtrace loop. -/
theorem backtraceLoop_succ (t : List (List (Option ParentLink)))
    (fuel i j : Nat) (path : List (Nat × Nat)) :
    backtraceLoop t (fuel + 1) i j path =
      match parentLookup t i j with
      | none => some path
      | some p => backtraceLoop t fuel p.i p.j (path ++ [(p.i, p.j)]) := rfl

/-- Following spec parent pointers from an in-bounds cell with enough fuel
succeeds, ends at the origin, keeps the visit list a chain, preserves the
cells already visited, and appends at most `i + j` further cells. -/
theorem backtraceLoop_spec (a b : List Char) :
    ∀ (fuel i j : Nat) (path : List (Nat × Nat)),
      i ≤ a.length → j ≤ b.length → i + j < fuel →
      path.getLast? = some (i, j) → pathChain path →
      ∃ res, backtraceLoop (parentTableSpec a b) fuel i j path = some res ∧
        res.getLast? = some (0, 0) ∧ pathChain res ∧
        (∀ c, c ∈ path → c ∈ res) ∧ res.length ≤ path.length + i + j := by
  intro fuel
  induction fuel with
  | zero =>
    intro i j path _ _ h _ _
    omega
  | succ fuel ih =>
    intro i j path hi hj hfuel hlast hchain
    have hlook : parentLookup (parentTableSpec a b) i j = parentSpec a b i j :=
      parentLookup_tableSpec a b i j hi hj
    rw [backtraceLoop_succ, hlook]
    cases hp : parentSpec a b i j with
    | none =>
      have h00 := (parentSpec_eq_none_iff a b i j).1 hp
      refine ⟨path, rfl, ?_, hchain, fun c hc => hc, by omega⟩
      rw [hlast, h00.1, h00.2]
    | some p =>
      have hdelta := parentSpec_delta a b i j p hp
      have hbound : p.i ≤ a.length ∧ p.j ≤ b.length ∧ p.i + p.j < fuel := by
        rcases hdelta with h | h | h <;>
          · obtain ⟨e1, e2, _⟩ := h
            omega
      have hstep : stepDelta (i, j) (p.i, p.j) := by
        rcases hdelta with h | h | h
        · exact Or.inl ⟨h.1, h.2.1⟩
        · exact Or.inr (Or.inl ⟨h.1, h.2.1⟩)
        · exact Or.inr (Or.inr ⟨h.1, h.2.1⟩)
      obtain ⟨res, h1, h2, h3, h4, h5⟩ := ih p.i p.j (path ++ [(p.i, p.j)])
        hbound.1 hbound.2.1 hbound.2.2 (List.getLast?_concat path)
        (pathChain_concat path (i, j) (p.i, p.j) hchain hlast hstep)
      refine ⟨res, h1, h2, h3, ?_, ?_⟩
      · intro c hc
        exact h4 c (List.mem_append_left _ hc)
      · rw [List.length_append] at h5
        rcases hdelta with h | h | h <;>
          · obtain ⟨e1, e2, _⟩ := h
            simp at h5
            omega

/-- The spec step list visits exactly the construction-order coordinates. -/
theorem stepsSpec_coords (a b : List Char) :
    (stepsSpec a b).map (fun s => (s.i, s.j)) = coordOrder a.length b.length := by
  have h1 : ((List.range (a.length + 1)).map (boundaryRowStep a)).map
      (fun s => (s.i, s.j)) = (List.range (a.length + 1)).map (fun i => (i, 0)) := by
    rw [List.map_map]
    apply List.map_congr_left
    intro i _
    show ((boundaryRowStep a i).i, (boundaryRowStep a i).j) = (i, 0)
    cases i <;> rfl
  have h2 : ((List.range b.length).map (fun j => colStepAt b (j + 1))).map
      (fun s => (s.i, s.j)) = (List.range b.length).map (fun j => (0, j + 1)) := by
    rw [List.map_map]
    rfl
  have h3 : ((List.range a.length).flatMap
      (fun i => (List.range b.length).map (fun j => interiorStep a b i j))).map
      (fun s => (s.i, s.j)) = (List.range a.length).flatMap
      (fun i => (List.range b.length).map (fun j => (i + 1, j + 1))) := by
    rw [List.map_flatMap]
    simp only [List.map_map]
    rfl
  rw [stepsSpec, coordOrder, List.map_append, List.map_append, h1, h2, h3]

/-- Length of the spec step list. -/
theorem stepsSpec_length (a b : List Char) :
    (stepsSpec a b).length = (a.length + 1) + b.length + a.length * b.length := by
  rw [stepsSpec]
  have hsum : ∀ (k : Nat), ((List.range k).flatMap
      (fun i => (List.range b.length).map (fun j => interiorStep a b i j))).length =
      k * b.length := by
    intro k
    induction k with
    | zero => simp
    | succ k ih =>
      rw [List.range_succ, List.flatMap_append, List.length_append, ih]
      simp [Nat.succ_mul]
  rw [List.length_append, List.length_append, List.length_map, List.length_map,
    List.length_range, List.length_range, hsum]

/-- The last coordinate in construction order is the final cell. -/
theorem coordOrder_getLast (m n : Nat) :
    (coordOrder m n).getLast? = some (m, n) := by
  rw [coordOrder]
  cases n with
  | zero =>
    have h3 : (List.range m).flatMap
        (fun i => (List.range 0).map (fun j => (i + 1, j + 1))) = [] := by simp
    rw [h3, List.append_nil, List.range_zero, List.map_nil, List.append_nil,
      List.range_succ, List.map_append]
    simp
  | succ n2 =>
    cases m with
    | zero =>
      have h3 : (List.range 0).flatMap
          (fun i => (List.range (n2 + 1)).map (fun j => (i + 1, j + 1))) = [] := rfl
      rw [h3, List.append_nil,
        List.getLast?_append_of_ne_nil _ (by simp), List.range_succ,
        List.map_append]
      simp
    | succ m2 =>
      rw [List.getLast?_append_of_ne_nil _
          (by simp; exact ⟨0, Nat.succ_pos m2⟩),
        List.range_succ, List.flatMap_append,
        List.getLast?_append_of_ne_nil _ (by simp),
        show ([m2].flatMap (fun i => (List.range (n2 + 1)).map
          (fun j => (i + 1, j + 1)))) = (List.range (n2 + 1)).map
          (fun j => (m2 + 1, j + 1)) by simp,
        List.range_succ, List.map_append]
      simp

/-- The last element of a list is a member. -/
theorem getLast?_mem_self {α : Type} {l : List α} {c : α}
    (h : l.getLast? = some c) : c ∈ l := by
  obtain ⟨hne, heq⟩ := List.mem_getLast?_eq_getLast h
  rw [heq]
  exact List.getLast_mem hne

/-- Decomposition of membership in the spec step list. -/
theorem stepsSpec_mem (a b : List Char) (s : CellExplain)
    (h : s ∈ stepsSpec a b) :
    s = initStep ∨
      (∃ i, i < a.length ∧ s = rowStepAt a (i + 1)) ∨
      (∃ j, j < b.length ∧ s = colStepAt b (j + 1)) ∨
      (∃ i j, i < a.length ∧ j < b.length ∧ s = interiorStep a b i j) := by
  rw [stepsSpec] at h
  rcases List.mem_append.1 h with h | h
  · rcases List.mem_append.1 h with h | h
    · obtain ⟨i, hi, rfl⟩ := List.mem_map.1 h
      rw [List.mem_range] at hi
      cases i with
      | zero => exact Or.inl rfl
      | succ i2 => exact Or.inr (Or.inl ⟨i2, by omega, rfl⟩)
    · obtain ⟨j, hj, rfl⟩ := List.mem_map.1 h
      rw [List.mem_range] at hj
      exact Or.inr (Or.inr (Or.inl ⟨j, hj, rfl⟩))
  · obtain ⟨i, hi, hmem⟩ := List.mem_flatMap.1 h
    obtain ⟨j, hj, rfl⟩ := List.mem_map.1 hmem
    rw [List.mem_range] at hi hj
    exact Or.inr (Or.inr (Or.inr ⟨i, j, hi, hj, rfl⟩))

/-! ### The claims -/

/-- Claim C1: for every pair of input strings, the value `table[lenA][lenB]`
returned by the Trace Builder equals the Levenshtein edit distance of the
inputs as computed by the independent in-file reference implementation
`levRef` (unit cost for insert/delete/substitute, zero for match), which in
turn agrees with Mathlib's independent `levenshtein` under unit costs. -/
theorem spec_c1_final_entry_is_levenshtein (a b : List Char) :
    tableAt (computeEditDistanceSteps a b).dp a.length b.length = levRef a b ∧
      levRef a b = levenshtein Levenshtein.defaultCost a b := by
  constructor
  · rw [computeEditDistanceSteps_eq]
    show tableAt (dpTableSpec a b) a.length b.length = _
    rw [tableAt_tableSpec a b a.length b.length le_rfl le_rfl,
      dpSpec_length_length]
  · exact levRef_eq_levenshtein a b

/-- Claim C5: the returned cost table satisfies `table[i][0] = i` for every
`i ≤ lenA` and `table[0][j] = j` for every `j ≤ lenB`. -/
theorem spec_c5_boundary (a b : List Char) (i j : Nat) (hi : i ≤ a.length)
    (hj : j ≤ b.length) :
    tableAt (computeEditDistanceSteps a b).dp i 0 = i ∧
      tableAt (computeEditDistanceSteps a b).dp 0 j = j := by
  rw [computeEditDistanceSteps_eq]
  show tableAt (dpTableSpec a b) i 0 = i ∧ tableAt (dpTableSpec a b) 0 j = j
  rw [tableAt_tableSpec a b i 0 hi (by omega),
    tableAt_tableSpec a b 0 j (by omega) hj, dpSpec_zero_right,
    dpSpec_zero_left]
  exact ⟨rfl, rfl⟩

/-- Witness for C5 at the concrete input A = "abc", B = "xy", i = 2, j = 1. -/
theorem spec_c5_boundary_witness :
    2 ≤ (['a', 'b', 'c'] : List Char).length ∧
      1 ≤ (['x', 'y'] : List Char).length ∧
      (tableAt (computeEditDistanceSteps ['a', 'b', 'c'] ['x', 'y']).dp 2 0 = 2 ∧
        tableAt (computeEditDistanceSteps ['a', 'b', 'c'] ['x', 'y']).dp 0 1 = 1) :=
  ⟨by decide, by decide,
    spec_c5_boundary ['a', 'b', 'c'] ['x', 'y'] 2 1 (by decide) (by decide)⟩

/-- Claim C6: the Trace Builder is total — every input pair yields a full
`(lenA+1) × (lenB+1)` table — and on two empty inputs it returns the table
`[[0]]`, distance `0`, and a step list of length exactly `1`. -/
theorem spec_c6_total_and_empty :
    (∀ a b : List Char,
      (computeEditDistanceSteps a b).dp.length = a.length + 1 ∧
        ∀ row ∈ (computeEditDistanceSteps a b).dp, row.length = b.length + 1) ∧
      (computeEditDistanceSteps [] []).dp = [[0]] ∧
      tableAt (computeEditDistanceSteps [] []).dp 0 0 = 0 ∧
      (computeEditDistanceSteps [] []).steps.length = 1 := by
  refine ⟨?_, by decide, by decide, by decide⟩
  intro a b
  rw [computeEditDistanceSteps_eq]
  constructor
  · show (dpTableSpec a b).length = _
    rw [dpTableSpec, List.length_map, List.length_range]
  · intro row hrow
    replace hrow : row ∈ dpTableSpec a b := hrow
    rw [dpTableSpec] at hrow
    obtain ⟨i, _, rfl⟩ := List.mem_map.1 hrow
    rw [List.length_map, List.length_range]

/-- Claim C4: the step list has length `(lenA+1) + lenB + lenA*lenB`, its
coordinates appear exactly in construction order — `(0,0)`, the first
column downwards, the first row rightwards, then the interior cells in
row-major order — and the last step is at cell `(lenA, lenB)`. -/
theorem spec_c4_step_order (a b : List Char) :
    (computeEditDistanceSteps a b).steps.map (fun s => (s.i, s.j)) =
        coordOrder a.length b.length ∧
      (computeEditDistanceSteps a b).steps.length =
        (a.length + 1) + b.length + a.length * b.length ∧
      ((computeEditDistanceSteps a b).steps.map (fun s => (s.i, s.j))).getLast? =
        some (a.length, b.length) := by
  rw [computeEditDistanceSteps_eq]
  refine ⟨stepsSpec_coords a b, stepsSpec_length a b, ?_⟩
  show ((stepsSpec a b).map (fun s => (s.i, s.j))).getLast? = _
  rw [stepsSpec_coords, coordOrder_getLast]

/-- Claim C8: backtracking the Trace Builder's parent table from the final
cell succeeds, and the visit set contains both `(0,0)` and `(lenA, lenB)`,
with consecutive cells differing by one of `(-1,0)`, `(0,-1)`, `(-1,-1)`. -/
theorem spec_c8_backtrace_path (a b : List Char) :
    ∃ path, buildBacktrace (computeEditDistanceSteps a b).parent
        a.length b.length (a.length + b.length + 1) = some path ∧
      (0, 0) ∈ path ∧ (a.length, b.length) ∈ path ∧ pathChain path := by
  rw [computeEditDistanceSteps_eq]
  show ∃ path, buildBacktrace (parentTableSpec a b) _ _ _ = some path ∧ _
  rw [buildBacktrace]
  obtain ⟨res, h1, h2, h3, h4, h5⟩ := backtraceLoop_spec a b
    (a.length + b.length + 1) a.length b.length [(a.length, b.length)]
    le_rfl le_rfl (by omega) rfl trivial
  exact ⟨res, h1, getLast?_mem_self h2, h4 _ (by simp), h3⟩

/-- Claim C7: backtracking from any in-bounds cell of a Trace Builder
parent table terminates within `endI + endJ + 1` loop iterations and visits
at most `endI + endJ + 1` cells, because every parent link decreases `i + j`
by exactly 1 (delete/insert) or exactly 2 (match/replace) and never
increases it. -/
theorem spec_c7_termination (a b : List Char) (endI endJ : Nat)
    (hi : endI ≤ a.length) (hj : endJ ≤ b.length) :
    (∃ path, buildBacktrace (computeEditDistanceSteps a b).parent endI endJ
        (endI + endJ + 1) = some path ∧ path.length ≤ endI + endJ + 1) ∧
      (∀ x y p, x ≤ a.length → y ≤ b.length →
        parentLookup (computeEditDistanceSteps a b).parent x y = some p →
          (x + y = p.i + p.j + 1 ∧ (p.op = Op.delete ∨ p.op = Op.insert)) ∨
          (x + y = p.i + p.j + 2 ∧ (p.op = Op.matchOp ∨ p.op = Op.replace))) := by
  rw [computeEditDistanceSteps_eq]
  constructor
  · show ∃ path, buildBacktrace (parentTableSpec a b) _ _ _ = some path ∧ _
    rw [buildBacktrace]
    obtain ⟨res, h1, h2, h3, h4, h5⟩ := backtraceLoop_spec a b
      (endI + endJ + 1) endI endJ [(endI, endJ)] hi hj (by omega) rfl trivial
    refine ⟨res, h1, ?_⟩
    simp only [List.length_singleton] at h5
    omega
  · intro x y p hx hy hp
    replace hp : parentLookup (parentTableSpec a b) x y = some p := hp
    rw [parentLookup_tableSpec a b x y hx hy] at hp
    rcases parentSpec_delta a b x y p hp with h | h | h
    · exact Or.inl ⟨by omega, Or.inl h.2.2⟩
    · exact Or.inl ⟨by omega, Or.inr h.2.2⟩
    · exact Or.inr ⟨by omega, h.2.2⟩

/-- Witness for C7 at the concrete input A = "a", B = "b", end cell (1,1). -/
theorem spec_c7_termination_witness :
    1 ≤ (['a'] : List Char).length ∧ 1 ≤ (['b'] : List Char).length ∧
      ((∃ path, buildBacktrace (computeEditDistanceSteps ['a'] ['b']).parent 1 1
          (1 + 1 + 1) = some path ∧ path.length ≤ 1 + 1 + 1) ∧
        (∀ x y p, x ≤ (['a'] : List Char).length →
          y ≤ (['b'] : List Char).length →
          parentLookup (computeEditDistanceSteps ['a'] ['b']).parent x y = some p →
            (x + y = p.i + p.j + 1 ∧ (p.op = Op.delete ∨ p.op = Op.insert)) ∨
            (x + y = p.i + p.j + 2 ∧ (p.op = Op.matchOp ∨ p.op = Op.replace)))) :=
  ⟨by decide, by decide,
    spec_c7_termination ['a'] ['b'] 1 1 (by decide) (by decide)⟩

/-- Counterexample to claim C2 as stated: on the Trace Builder's own 1×1
parent table (for two empty inputs) and the out-of-bounds coordinates
`(1, 0)`, `buildBacktrace` does not fail with any error — the
optional-chaining lookup finds no parent and the call returns the singleton
visit set normally. -/
theorem spec_c2_counterexample :
    buildBacktrace (computeEditDistanceSteps [] []).parent 1 0 2 =
      some [(1, 0)] := by
  decide

/-- Claim C2 amended: `buildBacktrace` defines no error kind at all; for
coordinates outside the table's bounds the optional-chaining lookup
`parent[i]?.[j]` yields nothing, the loop exits immediately, and the result
is the singleton visit set containing only the start cell. -/
theorem spec_c2_amended (t : List (List (Option ParentLink))) (i j fuel : Nat)
    (h : t.length ≤ i ∨ ∀ row, t.get? i = some row → row.length ≤ j) :
    buildBacktrace t i j (fuel + 1) = some [(i, j)] := by
  rw [buildBacktrace, backtraceLoop_succ]
  have hnone : parentLookup t i j = none := by
    rcases h with h | h
    · rw [parentLookup, List.get?_eq_none.2 h]
    · cases hrow : t.get? i with
      | none => rw [parentLookup, hrow]
      | some row =>
        rw [parentLookup, hrow]
        dsimp only
        rw [List.get?_eq_none.2 (h row hrow)]
  rw [hnone]

/-- Witness for the amended C2 at a concrete out-of-bounds input. -/
theorem spec_c2_amended_witness :
    (([[(none : Option ParentLink)]] : List (List (Option ParentLink))).length ≤ 5 ∨
        ∀ row, ([[(none : Option ParentLink)]] : List (List (Option ParentLink))).get? 5 =
          some row → row.length ≤ 7) ∧
      buildBacktrace [[(none : Option ParentLink)]] 5 7 3 = some [(5, 7)] :=
  ⟨Or.inl (by decide), spec_c2_amended [[none]] 5 7 2 (Or.inl (by decide))⟩

/-- Counterexample to claim C9 as stated: for A = "abc", B = "" it is not
true that every Step's chosen operation is `delete` — the first Step is the
`(0,0)` cell whose chosen operation is `init`. -/
theorem spec_c9_counterexample :
    ¬ (∀ s ∈ (computeEditDistanceSteps ['a', 'b', 'c'] []).steps,
        s.chosen.op = Op.delete) := by
  decide

/-- Claim C9 amended: for A = "abc", B = "" the distance is 3 and every
Step other than the initial `(0,0)` step (whose operation is `init`)
chooses `delete`; for A = "", B = "xyz" the distance is 3 and every Step
other than the initial one chooses `insert`. -/
theorem spec_c9_amended :
    (tableAt (computeEditDistanceSteps ['a', 'b', 'c'] []).dp 3 0 = 3 ∧
      ∀ s ∈ (computeEditDistanceSteps ['a', 'b', 'c'] []).steps,
        (s.i = 0 ∧ s.j = 0) ∨ s.chosen.op = Op.delete) ∧
      (tableAt (computeEditDistanceSteps [] ['x', 'y', 'z']).dp 0 3 = 3 ∧
        ∀ s ∈ (computeEditDistanceSteps [] ['x', 'y', 'z']).steps,
          (s.i = 0 ∧ s.j = 0) ∨ s.chosen.op = Op.insert) := by
  decide

/-- Claim C10: every step's recorded cost equals its chosen candidate's
value and equals the entry of the final returned cost table at the step's
coordinates — no table entry recorded in a step is modified by any later
fill step. -/
theorem spec_c10_cost_coherence (a b : List Char) (s : CellExplain)
    (hs : s ∈ (computeEditDistanceSteps a b).steps) :
    s.cost = s.chosen.value ∧
      s.cost = tableAt (computeEditDistanceSteps a b).dp s.i s.j := by
  replace hs : s ∈ stepsSpec a b := by
    rw [computeEditDistanceSteps_eq] at hs
    exact hs
  rw [computeEditDistanceSteps_eq]
  rcases stepsSpec_mem a b s hs with hcase | ⟨i, hi, hcase⟩ | ⟨j, hj, hcase⟩ |
    ⟨i, j, hi, hj, hcase⟩ <;> subst hcase
  · refine ⟨rfl, ?_⟩
    show (0 : Nat) = tableAt (dpTableSpec a b) 0 0
    rw [tableAt_tableSpec a b 0 0 (by omega) (by omega), dpSpec_zero_left]
  · refine ⟨rfl, ?_⟩
    show (i + 1 : Nat) = tableAt (dpTableSpec a b) (i + 1) 0
    rw [tableAt_tableSpec a b (i + 1) 0 (by omega) (by omega), dpSpec_zero_right]
  · refine ⟨rfl, ?_⟩
    show (j + 1 : Nat) = tableAt (dpTableSpec a b) 0 (j + 1)
    rw [tableAt_tableSpec a b 0 (j + 1) (by omega) (by omega), dpSpec_zero_left]
  · refine ⟨rfl, ?_⟩
    show (chosenSpec a b i j).value = tableAt (dpTableSpec a b) (i + 1) (j + 1)
    rw [tableAt_tableSpec a b (i + 1) (j + 1) (by omega) (by omega),
      chosenSpec_value]

/-- Witness for C10 at the concrete input A = "", B = "" and the initial
step. -/
theorem spec_c10_cost_coherence_witness :
    initStep ∈ (computeEditDistanceSteps [] []).steps ∧
      (initStep.cost = initStep.chosen.value ∧
        initStep.cost = tableAt (computeEditDistanceSteps [] []).dp
          initStep.i initStep.j) :=
  ⟨by decide, spec_c10_cost_coherence [] [] initStep (by decide)⟩

/-- First tie-break branch: the diagonal candidate is chosen whenever its
value attains the minimum. -/
theorem chosenSpec_branch_diag (a b : List Char) (i j : Nat)
    (h : dpSpec a b i j + (if a.get? i = b.get? j then 0 else 1) =
      min (dpSpec a b i (j + 1) + 1) (min (dpSpec a b (i + 1) j + 1)
        (dpSpec a b i j + (if a.get? i = b.get? j then 0 else 1)))) :
    chosenSpec a b i j =
      ⟨if a.get? i = b.get? j then Op.matchOp else Op.replace, some (i, j),
        dpSpec a b i j + (if a.get? i = b.get? j then 0 else 1)⟩ := by
  simp only [chosenSpec]
  rw [if_pos h]

/-- Second tie-break branch: delete is chosen when the diagonal misses the
minimum but delete attains it. -/
theorem chosenSpec_branch_del (a b : List Char) (i j : Nat)
    (hn : ¬ dpSpec a b i j + (if a.get? i = b.get? j then 0 else 1) =
      min (dpSpec a b i (j + 1) + 1) (min (dpSpec a b (i + 1) j + 1)
        (dpSpec a b i j + (if a.get? i = b.get? j then 0 else 1))))
    (h : dpSpec a b i (j + 1) + 1 =
      min (dpSpec a b i (j + 1) + 1) (min (dpSpec a b (i + 1) j + 1)
        (dpSpec a b i j + (if a.get? i = b.get? j then 0 else 1)))) :
    chosenSpec a b i j = ⟨Op.delete, some (i, j + 1), dpSpec a b i (j + 1) + 1⟩ := by
  simp only [chosenSpec]
  rw [if_neg hn, if_pos h]

/-- Third tie-break branch: insert is chosen when neither the diagonal nor
delete attains the minimum. -/
theorem chosenSpec_branch_ins (a b : List Char) (i j : Nat)
    (hn : ¬ dpSpec a b i j + (if a.get? i = b.get? j then 0 else 1) =
      min (dpSpec a b i (j + 1) + 1) (min (dpSpec a b (i + 1) j + 1)
        (dpSpec a b i j + (if a.get? i = b.get? j then 0 else 1))))
    (hn2 : ¬ dpSpec a b i (j + 1) + 1 =
      min (dpSpec a b i (j + 1) + 1) (min (dpSpec a b (i + 1) j + 1)
        (dpSpec a b i j + (if a.get? i = b.get? j then 0 else 1)))) :
    chosenSpec a b i j = ⟨Op.insert, some (i + 1, j), dpSpec a b (i + 1) j + 1⟩ := by
  simp only [chosenSpec]
  rw [if_neg hn, if_neg hn2]

/-- Claim C3: every interior step records all three candidates (delete,
insert, diagonal); the chosen candidate's value is the minimum of the three
candidate values; the final table entry at the step's cell equals that
minimum; and ties are broken diagonal first, then delete, then insert. -/
theorem spec_c3_interior_steps (a b : List Char) (s : CellExplain)
    (hs : s ∈ (computeEditDistanceSteps a b).steps)
    (hi : 1 ≤ s.i) (hj : 1 ≤ s.j) :
    ∃ del ins diag : Candidate,
      s.candidates = [del, ins, diag] ∧
      del.op = Op.delete ∧ ins.op = Op.insert ∧
      (diag.op = Op.matchOp ∨ diag.op = Op.replace) ∧
      s.chosen.value = min del.value (min ins.value diag.value) ∧
      tableAt (computeEditDistanceSteps a b).dp s.i s.j =
        min del.value (min ins.value diag.value) ∧
      (diag.value = min del.value (min ins.value diag.value) →
        s.chosen = diag) ∧
      (¬ diag.value = min del.value (min ins.value diag.value) →
        del.value = min del.value (min ins.value diag.value) →
        s.chosen = del) ∧
      (¬ diag.value = min del.value (min ins.value diag.value) →
        ¬ del.value = min del.value (min ins.value diag.value) →
        s.chosen = ins) := by
  replace hs : s ∈ stepsSpec a b := by
    rw [computeEditDistanceSteps_eq] at hs
    exact hs
  rw [computeEditDistanceSteps_eq]
  rcases stepsSpec_mem a b s hs with hcase | ⟨i, hi2, hcase⟩ | ⟨j, hj2, hcase⟩ |
    ⟨i, j, hi2, hj2, hcase⟩
  · subst hcase
    simp only [initStep] at hi
    omega
  · subst hcase
    simp only [rowStepAt] at hj
    omega
  · subst hcase
    simp only [colStepAt] at hi
    omega
  · subst hcase
    refine ⟨⟨Op.delete, some (i, j + 1), dpSpec a b i (j + 1) + 1⟩,
      ⟨Op.insert, some (i + 1, j), dpSpec a b (i + 1) j + 1⟩,
      ⟨if a.get? i = b.get? j then Op.matchOp else Op.replace, some (i, j),
        dpSpec a b i j + (if a.get? i = b.get? j then 0 else 1)⟩,
      rfl, rfl, rfl, ?_, ?_, ?_, ?_, ?_, ?_⟩
    · show (if a.get? i = b.get? j then Op.matchOp else Op.replace) = Op.matchOp ∨
        (if a.get? i = b.get? j then Op.matchOp else Op.replace) = Op.replace
      rcases em (a.get? i = b.get? j) with hc | hc
      · rw [if_pos hc]
        exact Or.inl rfl
      · rw [if_neg hc]
        exact Or.inr rfl
    · show (chosenSpec a b i j).value = _
      rw [chosenSpec_value, dpSpec_succ_succ]
    · show tableAt (dpTableSpec a b) (i + 1) (j + 1) = _
      rw [tableAt_tableSpec a b (i + 1) (j + 1) (by omega) (by omega),
        dpSpec_succ_succ]
    · intro h
      exact chosenSpec_branch_diag a b i j h
    · intro hn h
      exact chosenSpec_branch_del a b i j hn h
    · intro hn hn2
      exact chosenSpec_branch_ins a b i j hn hn2

/-- Witness for C3 at the concrete input A = "a", B = "b" and the single
interior step. -/
theorem spec_c3_interior_steps_witness :
    interiorStep ['a'] ['b'] 0 0 ∈ (computeEditDistanceSteps ['a'] ['b']).steps ∧
      1 ≤ (interiorStep ['a'] ['b'] 0 0).i ∧
      1 ≤ (interiorStep ['a'] ['b'] 0 0).j ∧
      (∃ del ins diag : Candidate,
        (interiorStep ['a'] ['b'] 0 0).candidates = [del, ins, diag] ∧
        del.op = Op.delete ∧ ins.op = Op.insert ∧
        (diag.op = Op.matchOp ∨ diag.op = Op.replace) ∧
        (interiorStep ['a'] ['b'] 0 0).chosen.value =
          min del.value (min ins.value diag.value) ∧
        tableAt (computeEditDistanceSteps ['a'] ['b']).dp
            (interiorStep ['a'] ['b'] 0 0).i (interiorStep ['a'] ['b'] 0 0).j =
          min del.value (min ins.value diag.value) ∧
        (diag.value = min del.value (min ins.value diag.value) →
          (interiorStep ['a'] ['b'] 0 0).chosen = diag) ∧
        (¬ diag.value = min del.value (min ins.value diag.value) →
          del.value = min del.value (min ins.value diag.value) →
          (interiorStep ['a'] ['b'] 0 0).chosen = del) ∧
        (¬ diag.value = min del.value (min ins.value diag.value) →
          ¬ del.value = min del.value (min ins.value diag.value) →
          (interiorStep ['a'] ['b'] 0 0).chosen = ins)) :=
  ⟨by decide, by decide, by decide,
    spec_c3_interior_steps ['a'] ['b'] (interiorStep ['a'] ['b'] 0 0)
      (by decide) (by decide) (by decide)⟩
